import Mathlib

/-!
Shallow embedding of the manifest reconciliation and artifact-selection
engine implemented by `uploadVersionJSON` in `src/upload-version-json.ts`,
together with proofs about the specified properties.

The TypeScript function is modelled as a pure function: the GitHub API
calls (`listReleaseAssets`, asset fetch, delete, upload), the local file
reads (`readFileSync`) and the clock (`new Date().toISOString()`) are
supplied as explicit inputs, and the effects the run performs (the
`latest.json` file written to disk, the deleted asset id, the upload) are
collected in an explicit result record.  A thrown JavaScript exception is
modelled by `Except.error`.
-/

set_option autoImplicit false

namespace TauriAction

/-- A locally built artifact (field for field the `Artifact` type used by the
source: a local file path plus an architecture tag). -/
structure Artifact where
  path : String
  arch : String
deriving Repr, DecidableEq

/-- The target information handed to the run (only the `platform` field is
read by `uploadVersionJSON`). -/
structure TargetInfo where
  platform : String
deriving Repr, DecidableEq

/-- One entry of the manifest platform map (type `Platform` of the source). -/
structure Platform where
  signature : String
  url : String
deriving Repr, DecidableEq

/-- The platform map of a manifest.  A JavaScript object with string keys is
modelled as an insertion-ordered association list: property insertion
appends, property update rewrites the value in place, so list equality is
byte-for-byte equality of the serialized `platforms` object. -/
abbrev Platforms := List (String × Platform)

/-- The full manifest content (type `VersionContent` of the source). -/
structure VersionContent where
  version : String
  notes : String
  pub_date : String
  platforms : Platforms
deriving Repr, DecidableEq

/-- An asset already attached to the release, as returned by the GitHub
asset-listing API.  `fetched` is the result of downloading this asset and
running `JSON.parse(...).platforms` on its bytes; it is consulted by the run
only for the asset named `latest.json`, and `Except.error` models a thrown
JSON parse error. -/
structure RemoteAsset where
  name : String
  browser_download_url : String
  id : Nat
  fetched : Except String Platforms
deriving Repr

/-- An artifact successfully joined with an uploaded remote asset (the
element type of the `filteredAssets` array of the source). -/
structure MatchedAsset where
  downloadUrl : String
  assetName : String
  path : String
  arch : String
deriving Repr, DecidableEq

/-- Property read `m[k]` on the platform object: the value at the key, if
present. -/
def getKey (m : Platforms) (k : String) : Option Platform :=
  (m.find? (fun e => e.1 == k)).map Prod.snd

/-- Property write `m[k] = v` on the platform object: updates the value in
place when the key is present, otherwise appends the new property. -/
def setKey : Platforms → String → Platform → Platforms
  | [], k, v => [(k, v)]
  | (k', v') :: rest, k, v =>
    if k' == k then (k, v) :: rest else (k', v') :: setKey rest k v

/-- The guarded write `if (!m[k]) m[k] = v` used for the two synthetic
darwin keys: inserts only when the key is absent. -/
def insertIfAbsent (m : Platforms) (k : String) (v : Platform) : Platforms :=
  match getKey m k with
  | some _ => m
  | none => setKey m k v

/-- Modelled from node `path.basename(p)` (posix, no suffix argument):
trailing slashes are ignored and the last path segment is returned. -/
def basename (p : String) : String :=
  ((((p.toList.reverse).dropWhile (fun c => c == '/')).takeWhile
    (fun c => c != '/')).reverse).asString

/-- Modelled from the spec: `getAssetName` (imported by the source from
`./utils`, which is not part of the sources given) maps a local artifact
file path to the name it was uploaded under by taking the file's base name
(spec section 4.1). -/
def getAssetName (p : String) : String :=
  basename p

/-- Index of the last dot of the list, counting from `i` for the head. -/
def lastDotIdxAux : List Char → Nat → Option Nat
  | [], _ => none
  | c :: rest, i =>
    match lastDotIdxAux rest (i + 1) with
    | some j => some j
    | none => if c == '.' then some i else none

/-- Index of the last dot of the list. -/
def lastDotIdx (l : List Char) : Option Nat :=
  lastDotIdxAux l 0

/-- Modelled from node `path.extname(p)` (posix): the part of the last path
segment from its last dot to its end; the empty string when the segment has
no dot, when its only dot is its first character (a dotfile has no
extension), or when the segment is exactly `..`. -/
def extname (p : String) : String :=
  let seg := (basename p).toList
  match lastDotIdx seg with
  | none => ""
  | some d =>
    if d = 0 ∨ seg = ['.', '.'] then ""
    else (seg.drop d).asString

/-- Modelled from node `path.basename(p, ext)` (posix): the last path
segment, with a trailing `ext` removed when the segment ends with `ext`
without being equal to it; a path equal to `ext` yields the empty string. -/
def basenameExt (p ext : String) : String :=
  if ext.length = 0 ∨ p.length < ext.length then basename p
  else if ext = p then ""
  else
    let seg := basename p
    if seg ≠ ext ∧ ext.toList.isSuffixOf seg.toList then seg.dropRight ext.length
    else seg

/-- Modelled from the JavaScript `String.prototype.endsWith` builtin. -/
def strEndsWith (s suffix : String) : Bool :=
  suffix.toList.isSuffixOf s.toList

/-- Combining acute accent, U+0301. -/
def markAcute : Char := Char.ofNat 0x301

/-- Combining grave accent, U+0300. -/
def markGrave : Char := Char.ofNat 0x300

/-- Combining circumflex accent, U+0302. -/
def markCirc : Char := Char.ofNat 0x302

/-- Combining tilde, U+0303. -/
def markTilde : Char := Char.ofNat 0x303

/-- Combining diaeresis, U+0308. -/
def markUml : Char := Char.ofNat 0x308

/-- Combining cedilla, U+0327. -/
def markCedilla : Char := Char.ofNat 0x327

/-- Decomposition table for `nfdChar`: precomposed Latin letters and their
canonical decompositions. -/
def nfdTable : List (Char × List Char) :=
  [('á', ['a', markAcute]), ('à', ['a', markGrave]), ('â', ['a', markCirc]),
   ('ä', ['a', markUml]), ('é', ['e', markAcute]), ('è', ['e', markGrave]),
   ('ê', ['e', markCirc]), ('ë', ['e', markUml]), ('í', ['i', markAcute]),
   ('ó', ['o', markAcute]), ('ô', ['o', markCirc]), ('ö', ['o', markUml]),
   ('ú', ['u', markAcute]), ('ü', ['u', markUml]), ('ç', ['c', markCedilla]),
   ('ñ', ['n', markTilde])]

/-- Canonical decomposition of one character, modelling the JavaScript
`String.prototype.normalize` builtin with argument NFD.  Characters without
a canonical decomposition map to themselves; the table covers the
precomposed Latin letters relevant to asset names (full Unicode NFD is an
external library facility of the JavaScript runtime). -/
def nfdChar (c : Char) : List Char :=
  match nfdTable.find? (fun e => e.1 == c) with
  | some e => e.2
  | none => [c]

/-- NFD decomposition of a character list. -/
def nfd (l : List Char) : List Char :=
  l.foldr (fun c acc => nfdChar c ++ acc) []

/-- The regex replacement mapping each of space and the six bracket
characters to a dot. -/
def replaceBrackets (l : List Char) : List Char :=
  l.map (fun c =>
    if c == ' ' ∨ c == '(' ∨ c == ')' ∨ c == '[' ∨ c == ']' ∨ c == '{' ∨ c == '}'
    then '.' else c)

/-- One global pass of the regex replacement of two dots by one: the string
is scanned left to right and each non-overlapping occurrence of two dots is
replaced by a single dot (exactly the JavaScript semantics of a global
`replace` of a two-dot pattern). -/
def collapsePass : List Char → List Char
  | [] => []
  | [c] => [c]
  | c1 :: c2 :: rest =>
    if c1 = '.' ∧ c2 = '.' then '.' :: collapsePass rest
    else c1 :: collapsePass (c2 :: rest)

/-- Full collapse: adjacent dots are merged repeatedly until none remain,
so every maximal run of dots becomes a single dot (the conceptual
operation named by the spec). -/
def collapseAll : List Char → List Char
  | [] => []
  | c :: rest =>
    if c = '.' then
      match collapseAll rest with
      | '.' :: t => '.' :: t
      | r => '.' :: r
    else c :: collapseAll rest

/-- Absence of three adjacent dots. -/
def noTripleDot : List Char → Bool
  | c1 :: c2 :: c3 :: rest =>
    if c1 = '.' ∧ c2 = '.' ∧ c3 = '.' then false
    else noTripleDot (c2 :: c3 :: rest)
  | _ => true

/-- Modelled from the JavaScript `String.prototype.trim` builtin: leading
and trailing whitespace removed. -/
def jsTrim (l : List Char) : List Char :=
  ((l.dropWhile Char.isWhitespace).reverse.dropWhile Char.isWhitespace).reverse

/-- Removal of the combining diacritical marks U+0300 through U+036F. -/
def stripMarks (l : List Char) : List Char :=
  l.filter (fun c => !(0x300 ≤ c.toNat ∧ c.toNat ≤ 0x36f))

/-- The asset-name normalization of the source (lines 101 to 107): base
name, trim, bracket characters to dots, one global two-dots-to-one pass,
NFD, strip combining marks. -/
def normalizeAssetName (path : String) : String :=
  (stripMarks (nfd (collapsePass (replaceBrackets
    (jsTrim (getAssetName path).toList))))).asString

/-- The variant of the normalization described by the spec words, where
runs of adjacent dots are collapsed repeatedly until none remain. -/
def normalizeAssetNameFullCollapse (path : String) : String :=
  (stripMarks (nfd (collapseAll (replaceBrackets
    (jsTrim (getAssetName path).toList))))).asString

/-- Inner loop of `signaturePriority`: the first suffix of the priority
list that the path ends with yields `100 - index`; no match yields 0. -/
def signaturePriorityAux (signaturePath : String) : List String → Nat → Nat
  | [], _ => 0
  | e :: rest, index =>
    if strEndsWith signaturePath e then 100 - index
    else signaturePriorityAux signaturePath rest (index + 1)

/-- The `signaturePriority` helper of the source (lines 133 to 143),
closed over the `updaterJsonPreferNsis` flag. -/
def signaturePriority (updaterJsonPreferNsis : Bool) (signaturePath : String) : Nat :=
  let priorities :=
    if updaterJsonPreferNsis
    then [".nsis.zip.sig", ".exe.sig", ".msi.zip.sig", ".msi.sig"]
    else [".msi.zip.sig", ".msi.sig", ".nsis.zip.sig", ".exe.sig"]
  signaturePriorityAux signaturePath priorities 0

/-- The order realised by the comparator
`(a, b) => signaturePriority(b.path) - signaturePriority(a.path)`:
`a` may be placed before `b` exactly when the priority of `a` is at least
that of `b`. -/
def signatureLe (preferNsis : Bool) (a b : MatchedAsset) : Bool :=
  decide (signaturePriority preferNsis b.path ≤ signaturePriority preferNsis a.path)

/-- Stable insertion of an element into a sorted list: the element lands in
front of the first element it may precede.  The sort below inserts from the
right, so the inserted element is earlier in input order than everything in
the list and in particular stays in front of the elements it ties with. -/
def orderedInsert {α : Type} (le : α → α → Bool) (x : α) : List α → List α
  | [] => [x]
  | y :: ys => if le x y then x :: y :: ys else y :: orderedInsert le x ys

/-- Modelled from `Array.prototype.sort` with a consistent comparator:
ECMAScript requires the result to be sorted and the sort to be stable, and
for a consistent comparator those two properties determine the output; a
stable insertion sort realises them (sortedness, membership and the
first-maximum head are proved below). -/
def jsSortBy {α : Type} (le : α → α → Bool) : List α → List α
  | [] => []
  | x :: xs => orderedInsert le x (jsSortBy le xs)

/-- Attempted regex match of `/download/(untagged-[^/]+)/` at the head of
the list: on success, returns the full matched substring, the first capture
group (`untagged-` plus the non-slash run) and the remainder after the
closing slash. -/
def matchUntaggedAt (l : List Char) : Option (List Char × List Char × List Char) :=
  if ("/download/untagged-".toList).isPrefixOf l then
    let after0 := l.drop 19
    let mid := after0.takeWhile (fun c => c != '/')
    let rest := after0.dropWhile (fun c => c != '/')
    if mid.length > 0 ∧ rest.head? = some '/' then
      some ("/download/untagged-".toList ++ mid ++ ['/'],
            ("untagged-".toList ++ mid, rest.tail))
    else none
  else none

/-- Leftmost match of the untagged-download pattern: returns the text
before the match, the matched substring, the capture group and the text
after the match. -/
def findUntagged : List Char → Option (List Char × List Char × List Char × List Char)
  | [] => none
  | c :: rest =>
    match matchUntaggedAt (c :: rest) with
    | some (m, g, a) => some ([], m, g, a)
    | none =>
      match findUntagged rest with
      | some (b, m, g, a) => some (c :: b, m, g, a)
      | none => none

/-- Modelled from the replacement-string semantics of the JavaScript
`String.prototype.replace` builtin for a regex with one capture group: a
dollar sign followed by a dollar sign inserts a dollar sign, followed by an
ampersand inserts the matched substring, followed by U+0060 inserts the
text before the match, followed by U+0027 inserts the text after the match,
followed by the digit one inserts the capture group; any other character
sequence is copied verbatim. -/
def jsExpandReplacement (matched before after group1 : List Char) : List Char → List Char
  | [] => []
  | [c] => [c]
  | c0 :: c :: rest =>
    if c0 = '$' then
      if c = '$' then '$' :: jsExpandReplacement matched before after group1 rest
      else if c = '&' then matched ++ jsExpandReplacement matched before after group1 rest
      else if c = Char.ofNat 96 then before ++ jsExpandReplacement matched before after group1 rest
      else if c = Char.ofNat 39 then after ++ jsExpandReplacement matched before after group1 rest
      else if c = '1' then group1 ++ jsExpandReplacement matched before after group1 rest
      else '$' :: c :: jsExpandReplacement matched before after group1 rest
    else c0 :: jsExpandReplacement matched before after group1 (c :: rest)

/-- The untagged-URL rewrite of the source (lines 166 to 170): the first
occurrence of `/download/untagged-X/` (X a non-empty run without slash) is
replaced by `/download/` tag `/` when the tag name is non-empty, by
`/latest/download/` otherwise, with JavaScript dollar substitution applied
to the replacement string; a URL without such a segment is unchanged. -/
def rewriteUntagged (url tagName : String) : String :=
  let repl :=
    if tagName = "" then "/latest/download/".toList
    else "/download/".toList ++ tagName.toList ++ ['/']
  match findUntagged url.toList with
  | none => url
  | some (b, m, g, a) =>
    (b ++ jsExpandReplacement m b a g repl ++ a).asString

/-- The OS normalization of the source (lines 172 to 175). -/
def resolveOs (platform : String) : String :=
  if platform = "macos" then "darwin" else platform

/-- The architecture normalization of the source (lines 177 to 187). -/
def resolveArch (arch : String) : String :=
  if arch = "amd64" ∨ arch = "x86_64" ∨ arch = "x64" then "x86_64"
  else if arch = "x86" ∨ arch = "i386" then "i686"
  else if arch = "arm" then "armv7"
  else if arch = "arm64" then "aarch64"
  else arch

/-- The fixed name of the manifest asset. -/
def versionFilename : String := "latest.json"

/-- All inputs of one `uploadVersionJSON` run.  `allAssets` is the full
asset list of the release on the hosting side; `readFile` is the content
returned by `readFileSync` for a local path; `now` is the timestamp string
produced by the clock. -/
structure RunInput where
  version : String
  notes : String
  tagName : String
  artifacts : List Artifact
  targetInfo : TargetInfo
  updaterJsonPreferNsis : Bool
  updaterJsonKeepUniversal : Bool
  allAssets : List RemoteAsset
  readFile : String → String
  now : String

/-- The externally visible effects of one run: the `latest.json` content
written to the working directory (if any), the id of the deleted prior
manifest asset (if any), and whether the new manifest was uploaded. -/
structure RunResult where
  written : Option VersionContent
  deletedAssetId : Option Nat
  uploaded : Bool
deriving Repr, DecidableEq

/-- The single asset-listing call of the source (lines 63 to 68): one
request with `per_page` 50 and no pagination, so the hosting side returns
only the first page of at most 50 assets. -/
def listReleaseAssets (allAssets : List RemoteAsset) : List RemoteAsset :=
  allAssets.take 50

/-- The page of assets the run works on. -/
def page (i : RunInput) : List RemoteAsset :=
  listReleaseAssets i.allAssets

/-- The manifest asset detection of the source (line 69). -/
def existingAsset (i : RunInput) : Option RemoteAsset :=
  (page i).find? (fun e => e.name == versionFilename)

/-- The name-to-URL map of the source (lines 93 to 96).  A JavaScript `Map`
built by repeated `set` keeps the last write per key, hence the lookup on
the reversed list. -/
def downloadUrlFor (assets : List RemoteAsset) (name : String) : Option String :=
  (assets.reverse.find? (fun a => a.name == name)).map
    (fun a => a.browser_download_url)

/-- The artifact-to-asset matching loop of the source (lines 99 to 122):
each artifact whose normalized name has an uploaded counterpart with a
truthy (non-empty) download URL becomes a `MatchedAsset`, in artifact
order. -/
def matchAssets (artifacts : List Artifact) (assets : List RemoteAsset) : List MatchedAsset :=
  artifacts.filterMap (fun artifact =>
    let assetName := normalizeAssetName artifact.path
    match downloadUrlFor assets assetName with
    | none => none
    | some url =>
      if url = "" then none
      else some { downloadUrl := url, assetName := assetName,
                  path := artifact.path, arch := artifact.arch })

/-- The `filteredAssets` array of the source. -/
def filteredAssets (i : RunInput) : List MatchedAsset :=
  matchAssets i.artifacts (page i)

/-- The `signatureFiles` array of the source (lines 124 to 126). -/
def signatureFiles (i : RunInput) : List MatchedAsset :=
  (filteredAssets i).filter (fun a => strEndsWith a.assetName ".sig")

/-- The in-place stable sort of `signatureFiles` (lines 144 to 146). -/
def sortedSignatureFiles (i : RunInput) : List MatchedAsset :=
  jsSortBy (signatureLe i.updaterJsonPreferNsis) (signatureFiles i)

/-- The winning signature `signatureFiles[0]` (line 147). -/
def selectedSignature (i : RunInput) : Option MatchedAsset :=
  (sortedSignatureFiles i).head?

/-- The `updaterName` computation of the source (lines 155 to 158). -/
def updaterName (sf : MatchedAsset) : String :=
  basenameExt sf.assetName (extname sf.assetName)

/-- The companion lookup of the source (lines 159 to 161): the first
matched asset whose asset name equals the updater name. -/
def companion (i : RunInput) : Option MatchedAsset :=
  match selectedSignature i with
  | none => none
  | some sf => (filteredAssets i).find? (fun a => a.assetName == updaterName sf)

/-- The advertised download URL: the companion's URL if truthy, after the
untagged-segment rewrite (lines 159 to 170). -/
def companionUrl (i : RunInput) : Option String :=
  match companion i with
  | none => none
  | some c =>
    if c.downloadUrl = "" then none
    else some (rewriteUntagged c.downloadUrl i.tagName)

/-- The platform-map writes of the source (lines 190 to 210): in the
darwin-universal case the two native darwin keys are written only when
absent; the literal os-arch key is written unconditionally when the keep
flag is set or the pair is not darwin-universal. -/
def applyPlatformWrites (platforms0 : Platforms) (os arch : String)
    (keepUniversal : Bool) (sig url : String) : Platforms :=
  let v : Platform := { signature := sig, url := url }
  let m1 :=
    if os = "darwin" ∧ arch = "universal" then
      insertIfAbsent (insertIfAbsent platforms0 "darwin-aarch64" v) "darwin-x86_64" v
    else platforms0
  if keepUniversal = true ∨ os ≠ "darwin" ∨ arch ≠ "universal" then
    setKey m1 (os ++ "-" ++ arch) v
  else m1

/-- The run from the point where the existing platform map is known: the
selection, resolution, merge, file write, delete and upload of the source
(lines 99 to 224).  The two skip paths (no signature, no companion URL)
return successfully with no effects. -/
def reconcile (i : RunInput) (platforms0 : Platforms) (existingId : Option Nat) : RunResult :=
  match selectedSignature i, companionUrl i with
  | some sf, some url =>
    let os := resolveOs i.targetInfo.platform
    let arch := resolveArch sf.arch
    let sig := i.readFile sf.path
    let ps := applyPlatformWrites platforms0 os arch i.updaterJsonKeepUniversal sig url
    { written := some { version := i.version, notes := i.notes,
                        pub_date := i.now, platforms := ps },
      deletedAssetId := existingId,
      uploaded := true }
  | _, _ => { written := none, deletedAssetId := none, uploaded := false }

/-- The whole `uploadVersionJSON` run.  When a `latest.json` asset is on
the first page its content is fetched and parsed before anything else; a
parse failure aborts the run with that error and no effects. -/
def uploadVersionJSON (i : RunInput) : Except String RunResult :=
  match existingAsset i with
  | some a =>
    match a.fetched with
    | Except.error e => Except.error e
    | Except.ok platforms0 => Except.ok (reconcile i platforms0 (some a.id))
  | none => Except.ok (reconcile i [] none)

/-- Replacement of the fetched content of the manifest asset: what the
asset list looks like on a second run, after the first run replaced the
`latest.json` asset with a manifest whose platform map is `ps`. -/
def updateFetched (ps : Platforms) (a : RemoteAsset) : RemoteAsset :=
  if a.name == versionFilename then { a with fetched := Except.ok ps } else a

/-- The asset list of the second run: identical to the first run's except
that fetching `latest.json` now yields the platform map published by the
first run. -/
def setFetched (assets : List RemoteAsset) (ps : Platforms) : List RemoteAsset :=
  assets.map (updateFetched ps)

/-- A URL contains a path segment of the shape
`/download/untagged-X/` with `X` a non-empty run of non-slash characters
(the property named by the spec for the URL rewriter). -/
def hasUntaggedSegment (url : String) : Prop :=
  ∃ b mid a, url.toList = b ++ ("/download/untagged-".toList ++ mid ++ ['/']) ++ a
    ∧ mid ≠ [] ∧ '/' ∉ mid

/-- Concrete example run: a Windows build with an msi.zip artifact, its
signature, and a previously published manifest asset. -/
def exRun : RunInput :=
  { version := "1.0", notes := "notes", tagName := "v1",
    artifacts := [⟨"app.msi.zip.sig", "x64"⟩, ⟨"app.msi.zip", "x64"⟩],
    targetInfo := ⟨"windows"⟩,
    updaterJsonPreferNsis := false, updaterJsonKeepUniversal := false,
    allAssets :=
      [ ⟨"latest.json", "u0", 7, Except.ok []⟩,
        ⟨"app.msi.zip.sig", "https://h/download/untagged-q/app.msi.zip.sig", 8, Except.ok []⟩,
        ⟨"app.msi.zip", "https://h/download/untagged-q/app.msi.zip", 9, Except.ok []⟩ ],
    readFile := fun _ => "SIG",
    now := "t1" }

/-- Concrete example run with three Windows signature artifacts of the
three installer families. -/
def exThree : RunInput :=
  { exRun with
    artifacts := [⟨"app.exe.sig", "x64"⟩, ⟨"app.msi.sig", "x64"⟩, ⟨"app.nsis.zip.sig", "x64"⟩],
    allAssets :=
      [ ⟨"app.exe.sig", "ue", 1, Except.ok []⟩,
        ⟨"app.msi.sig", "um", 2, Except.ok []⟩,
        ⟨"app.nsis.zip.sig", "un", 3, Except.ok []⟩ ] }

/-- Concrete example run whose only matched asset is a bare `.sig` file. -/
def exDotSig : RunInput :=
  { exRun with
    artifacts := [⟨".sig", "x64"⟩],
    allAssets := [⟨".sig", "usig", 1, Except.ok []⟩] }

/-- Concrete example run with 51 release assets whose `latest.json` and a
matching artifact asset sit beyond the 50-asset first page. -/
def exBig : RunInput :=
  { exRun with
    artifacts := [⟨"app.msi.zip.sig", "x64"⟩],
    allAssets :=
      ((List.range 50).map (fun n => ⟨"filler" ++ toString n, "uf", n, Except.ok []⟩)) ++
        [⟨"latest.json", "u0", 100, Except.ok []⟩,
         ⟨"app.msi.zip.sig", "us", 101, Except.ok []⟩] }

/-- Concrete example run whose manifest asset does not parse. -/
def exBad : RunInput :=
  { exRun with
    allAssets := [⟨"latest.json", "u0", 7, Except.error "unexpected token"⟩] }

/-! ## Lemmas about the platform-object operations -/

theorem getKey_cons (k' : String) (v' : Platform) (m : Platforms) (k : String) :
    getKey ((k', v') :: m) k = if k' == k then some v' else getKey m k := by
  by_cases h : k' == k <;> simp [getKey, List.find?, h]

theorem getKey_setKey_self (m : Platforms) (k : String) (v : Platform) :
    getKey (setKey m k v) k = some v := by
  induction m with
  | nil => simp [getKey, setKey, List.find?]
  | cons e rest ih =>
    obtain ⟨k', v'⟩ := e
    by_cases h : k' == k
    · simp [setKey, h, getKey_cons]
    · simp [setKey, h, getKey_cons, ih]

theorem getKey_setKey_ne (m : Platforms) (k k' : String) (v : Platform)
    (h : k' ≠ k) : getKey (setKey m k v) k' = getKey m k' := by
  induction m with
  | nil =>
    have hk : (k == k') = false := by
      simpa using fun hkk => h hkk.symm
    simp [getKey, setKey, List.find?, hk]
  | cons e rest ih =>
    obtain ⟨k0, v0⟩ := e
    by_cases h0 : k0 == k
    · have hk : (k == k') = false := by
        simpa using fun hkk => h hkk.symm
      have h0' : k0 = k := by simpa using h0
      simp [setKey, h0, getKey_cons, hk, h0']
    · simp [setKey, h0, getKey_cons, ih]

theorem setKey_of_getKey_self (m : Platforms) (k : String) (v : Platform)
    (h : getKey m k = some v) : setKey m k v = m := by
  induction m with
  | nil => simp [getKey] at h
  | cons e rest ih =>
    obtain ⟨k', v'⟩ := e
    by_cases h0 : k' == k
    · have h0' : k' = k := by simpa using h0
      rw [getKey_cons, if_pos h0] at h
      obtain rfl : v' = v := by simpa using h
      simp [setKey, h0, h0']
    · rw [getKey_cons, if_neg h0] at h
      simp [setKey, h0, ih h]

theorem setKey_of_getKey_none (m : Platforms) (k : String) (v : Platform)
    (h : getKey m k = none) : setKey m k v = m ++ [(k, v)] := by
  induction m with
  | nil => simp [setKey]
  | cons e rest ih =>
    obtain ⟨k', v'⟩ := e
    by_cases h0 : k' == k
    · rw [getKey_cons, if_pos h0] at h
      simp at h
    · rw [getKey_cons, if_neg h0] at h
      simp [setKey, h0, ih h]

theorem getKey_insertIfAbsent_preserve (m : Platforms) (k k' : String)
    (v v0 : Platform) (h : getKey m k' = some v0) :
    getKey (insertIfAbsent m k v) k' = some v0 := by
  unfold insertIfAbsent
  cases hm : getKey m k with
  | some w => simpa using h
  | none =>
    have hne : k' ≠ k := fun he => by rw [he, hm] at h; exact Option.noConfusion h
    rw [getKey_setKey_ne m k k' v hne]
    exact h

theorem getKey_insertIfAbsent_isSome (m : Platforms) (k : String) (v : Platform) :
    (getKey (insertIfAbsent m k v) k).isSome := by
  unfold insertIfAbsent
  cases hm : getKey m k with
  | some w => simp [hm]
  | none => simp [getKey_setKey_self]

theorem insertIfAbsent_of_isSome (m : Platforms) (k : String) (v : Platform)
    (h : (getKey m k).isSome) : insertIfAbsent m k v = m := by
  unfold insertIfAbsent
  cases hm : getKey m k with
  | some w => rfl
  | none => rw [hm] at h; simp at h

theorem insertIfAbsent_of_getKey_none (m : Platforms) (k : String) (v : Platform)
    (h : getKey m k = none) : insertIfAbsent m k v = m ++ [(k, v)] := by
  unfold insertIfAbsent
  rw [h, setKey_of_getKey_none m k v h]

theorem getKey_eq_none_of_forall (m : Platforms) (k : String)
    (h : ∀ p ∈ m, p.1 ≠ k) : getKey m k = none := by
  unfold getKey
  rw [List.find?_eq_none.2]
  · rfl
  · intro p hp
    simpa using h p hp

theorem getKey_append_of_none (m l : Platforms) (k : String)
    (h : getKey m k = none) : getKey (m ++ l) k = getKey l k := by
  unfold getKey at *
  rcases hm : m.find? (fun e => e.1 == k) with _ | p
  · rw [List.find?_append, hm]
    simp
  · rw [hm] at h; simp at h

theorem getKey_append_of_some (m l : Platforms) (k : String) (v0 : Platform)
    (h : getKey m k = some v0) : getKey (m ++ l) k = some v0 := by
  unfold getKey at *
  rcases hm : m.find? (fun e => e.1 == k) with _ | p
  · rw [hm] at h; simp at h
  · rw [List.find?_append, hm]
    rw [hm] at h
    simpa using h

theorem getKey_insertIfAbsent_isSome_preserve (m : Platforms) (k k' : String)
    (v : Platform) (h : (getKey m k).isSome) :
    (getKey (insertIfAbsent m k' v) k).isSome := by
  obtain ⟨w, hw⟩ := Option.isSome_iff_exists.1 h
  rw [getKey_insertIfAbsent_preserve m k' k v w hw]
  rfl

@[simp] theorem getKey_nil (k : String) : getKey [] k = none := rfl

theorem applyPlatformWrites_univ_false (m : Platforms) (sig url : String) :
    applyPlatformWrites m "darwin" "universal" false sig url
      = insertIfAbsent (insertIfAbsent m "darwin-aarch64" ⟨sig, url⟩)
          "darwin-x86_64" ⟨sig, url⟩ := by
  simp [applyPlatformWrites]

theorem applyPlatformWrites_univ_true (m : Platforms) (sig url : String) :
    applyPlatformWrites m "darwin" "universal" true sig url
      = setKey (insertIfAbsent (insertIfAbsent m "darwin-aarch64" ⟨sig, url⟩)
          "darwin-x86_64" ⟨sig, url⟩) "darwin-universal" ⟨sig, url⟩ := by
  simp [applyPlatformWrites]

theorem applyPlatformWrites_nonuniv (m : Platforms) (os arch : String)
    (keep : Bool) (sig url : String) (h : ¬ (os = "darwin" ∧ arch = "universal")) :
    applyPlatformWrites m os arch keep sig url
      = setKey m (os ++ "-" ++ arch) ⟨sig, url⟩ := by
  have hcond : keep = true ∨ os ≠ "darwin" ∨ arch ≠ "universal" := by
    by_cases ho : os = "darwin"
    · by_cases ha : arch = "universal"
      · exact absurd ⟨ho, ha⟩ h
      · exact Or.inr (Or.inr ha)
    · exact Or.inr (Or.inl ho)
  simp only [applyPlatformWrites, if_neg h, if_pos hcond]

theorem applyPlatformWrites_idem (m : Platforms) (os arch : String)
    (keep : Bool) (sig url : String) :
    applyPlatformWrites (applyPlatformWrites m os arch keep sig url) os arch keep sig url
      = applyPlatformWrites m os arch keep sig url := by
  by_cases hDU : os = "darwin" ∧ arch = "universal"
  · obtain ⟨ho, ha⟩ := hDU
    subst ho; subst ha
    cases keep with
    | true =>
      rw [applyPlatformWrites_univ_true, applyPlatformWrites_univ_true]
      have hA : (getKey (applyPlatformWrites m "darwin" "universal" true sig url)
          "darwin-aarch64").isSome := by
        rw [applyPlatformWrites_univ_true, getKey_setKey_ne _ _ _ _ (by decide)]
        exact getKey_insertIfAbsent_isSome_preserve _ _ _ _
          (getKey_insertIfAbsent_isSome _ _ _)
      rw [applyPlatformWrites_univ_true] at hA
      rw [insertIfAbsent_of_isSome _ _ _ hA]
      have hX : (getKey (setKey (insertIfAbsent (insertIfAbsent m "darwin-aarch64"
          ⟨sig, url⟩) "darwin-x86_64" ⟨sig, url⟩) "darwin-universal" ⟨sig, url⟩)
          "darwin-x86_64").isSome := by
        rw [getKey_setKey_ne _ _ _ _ (by decide)]
        exact getKey_insertIfAbsent_isSome _ _ _
      rw [insertIfAbsent_of_isSome _ _ _ hX]
      exact setKey_of_getKey_self _ _ _ (getKey_setKey_self _ _ _)
    | false =>
      rw [applyPlatformWrites_univ_false, applyPlatformWrites_univ_false]
      have hA : (getKey (insertIfAbsent (insertIfAbsent m "darwin-aarch64"
          ⟨sig, url⟩) "darwin-x86_64" ⟨sig, url⟩) "darwin-aarch64").isSome :=
        getKey_insertIfAbsent_isSome_preserve _ _ _ _
          (getKey_insertIfAbsent_isSome _ _ _)
      rw [insertIfAbsent_of_isSome _ _ _ hA]
      exact insertIfAbsent_of_isSome _ _ _ (getKey_insertIfAbsent_isSome _ _ _)
  · rw [applyPlatformWrites_nonuniv _ _ _ _ _ _ hDU,
      applyPlatformWrites_nonuniv _ _ _ _ _ _ hDU,
      setKey_of_getKey_self _ _ _ (getKey_setKey_self _ _ _)]

/-- C2: with resolved OS darwin, resolved arch universal and
keepUniversal false, merging into a manifest without darwin entries adds
exactly the two keys darwin-aarch64 and darwin-x86_64, both carrying the
same signature and the same URL, and writes no darwin-universal key;
merging into a manifest that already contains darwin-aarch64 leaves that
entry byte-for-byte unchanged while darwin-x86_64 is still written. -/
theorem darwin_universal_resolution (m : Platforms) (sig url : String) :
    ((∀ p ∈ m, ¬ ("darwin".toList.isPrefixOf p.1.toList = true)) →
      applyPlatformWrites m "darwin" "universal" false sig url
          = m ++ [("darwin-aarch64", ⟨sig, url⟩), ("darwin-x86_64", ⟨sig, url⟩)]
        ∧ getKey (applyPlatformWrites m "darwin" "universal" false sig url)
            "darwin-universal" = none) ∧
    (∀ v0 : Platform, getKey m "darwin-aarch64" = some v0 →
      getKey m "darwin-x86_64" = none →
      applyPlatformWrites m "darwin" "universal" false sig url
          = m ++ [("darwin-x86_64", ⟨sig, url⟩)]
        ∧ getKey (applyPlatformWrites m "darwin" "universal" false sig url)
            "darwin-aarch64" = some v0) := by
  constructor
  · intro hno
    have hkey : ∀ k : String, "darwin".toList.isPrefixOf k.toList = true →
        getKey m k = none := by
      intro k hk
      apply getKey_eq_none_of_forall
      intro p hp he
      exact hno p hp (he ▸ hk)
    have hA : getKey m "darwin-aarch64" = none := hkey _ (by decide)
    have hX : getKey m "darwin-x86_64" = none := hkey _ (by decide)
    have hU : getKey m "darwin-universal" = none := hkey _ (by decide)
    have hres : applyPlatformWrites m "darwin" "universal" false sig url
        = m ++ [("darwin-aarch64", ⟨sig, url⟩), ("darwin-x86_64", ⟨sig, url⟩)] := by
      rw [applyPlatformWrites_univ_false]
      rw [insertIfAbsent_of_getKey_none m _ _ hA]
      rw [insertIfAbsent_of_getKey_none _ _ _
        (by
          rw [getKey_append_of_none _ _ _ hX]
          simp [getKey_cons])]
      simp
    refine ⟨hres, ?_⟩
    rw [hres, getKey_append_of_none _ _ _ hU]
    simp [getKey_cons]
  · intro v0 hA hX
    have hres : applyPlatformWrites m "darwin" "universal" false sig url
        = m ++ [("darwin-x86_64", ⟨sig, url⟩)] := by
      rw [applyPlatformWrites_univ_false]
      rw [insertIfAbsent_of_isSome m _ _ (by rw [hA]; rfl)]
      rw [insertIfAbsent_of_getKey_none _ _ _ hX]
    refine ⟨hres, ?_⟩
    rw [hres]
    exact getKey_append_of_some _ _ _ _ hA

/-- C2 witness: the two halves of the statement evaluated at concrete
manifests. -/
theorem darwin_universal_resolution_witness :
    (applyPlatformWrites [] "darwin" "universal" false "S" "U"
        = [("darwin-aarch64", ⟨"S", "U"⟩), ("darwin-x86_64", ⟨"S", "U"⟩)]
      ∧ getKey (applyPlatformWrites [] "darwin" "universal" false "S" "U")
          "darwin-universal" = none)
    ∧ (applyPlatformWrites [("darwin-aarch64", ⟨"S0", "U0"⟩)] "darwin" "universal" false "S" "U"
        = [("darwin-aarch64", ⟨"S0", "U0"⟩), ("darwin-x86_64", ⟨"S", "U"⟩)]
      ∧ getKey (applyPlatformWrites [("darwin-aarch64", ⟨"S0", "U0"⟩)]
          "darwin" "universal" false "S" "U") "darwin-aarch64" = some ⟨"S0", "U0"⟩) := by
  constructor
  · have h := (darwin_universal_resolution [] "S" "U").1 (by simp)
    simpa using h
  · have h := (darwin_universal_resolution [("darwin-aarch64", ⟨"S0", "U0"⟩)] "S" "U").2
      ⟨"S0", "U0"⟩ (by simp [getKey_cons]) (by simp [getKey_cons, getKey])
    simpa using h

/-- C6: the universal-build write path only inserts absent keys and never
replaces an entry already present in the merged-in manifest, while the
non-universal write path (taken when keepUniversal is set or the pair is
not darwin-universal) writes the os-arch key unconditionally, replacing
any existing entry under that key. -/
theorem universal_inserts_nonuniversal_overwrites :
    (∀ (m : Platforms) (sig url k : String) (v0 : Platform),
        getKey m k = some v0 →
        getKey (applyPlatformWrites m "darwin" "universal" false sig url) k = some v0) ∧
    (∀ (m : Platforms) (os arch : String) (keep : Bool) (sig url : String),
        (keep = true ∨ os ≠ "darwin" ∨ arch ≠ "universal") →
        getKey (applyPlatformWrites m os arch keep sig url) (os ++ "-" ++ arch)
          = some { signature := sig, url := url }) := by
  constructor
  · intro m sig url k v0 h
    rw [applyPlatformWrites_univ_false]
    exact getKey_insertIfAbsent_preserve _ _ _ _ _
      (getKey_insertIfAbsent_preserve _ _ _ _ _ h)
  · intro m os arch keep sig url h
    by_cases hDU : os = "darwin" ∧ arch = "universal"
    · obtain ⟨ho, ha⟩ := hDU
      subst ho; subst ha
      have hk : keep = true := by
        rcases h with h | h | h
        · exact h
        · exact absurd rfl h
        · exact absurd rfl h
      subst hk
      rw [applyPlatformWrites_univ_true]
      have : ("darwin" ++ "-" ++ "universal" : String) = "darwin-universal" := by decide
      rw [this]
      exact getKey_setKey_self _ _ _
    · rw [applyPlatformWrites_nonuniv _ _ _ _ _ _ hDU]
      exact getKey_setKey_self _ _ _

/-- C6 witness: an existing darwin-aarch64 entry survives the universal
write path, and the non-universal path overwrites an existing entry. -/
theorem universal_inserts_nonuniversal_overwrites_witness :
    getKey (applyPlatformWrites [("darwin-aarch64", ⟨"S0", "U0"⟩)]
        "darwin" "universal" false "S" "U") "darwin-aarch64" = some ⟨"S0", "U0"⟩
    ∧ getKey (applyPlatformWrites [("windows-x86_64", ⟨"S0", "U0"⟩)]
        "windows" "x86_64" false "S" "U") ("windows" ++ "-" ++ "x86_64")
        = some { signature := "S", url := "U" } :=
  ⟨universal_inserts_nonuniversal_overwrites.1
      [("darwin-aarch64", ⟨"S0", "U0"⟩)] "S" "U" "darwin-aarch64" ⟨"S0", "U0"⟩
      (by simp [getKey_cons]),
    universal_inserts_nonuniversal_overwrites.2
      [("windows-x86_64", ⟨"S0", "U0"⟩)] "windows" "x86_64" false "S" "U"
      (Or.inr (Or.inl (by decide)))⟩

/-! ## The second run sees the same matching stages -/

theorem name_updateFetched (ps : Platforms) (a : RemoteAsset) :
    (updateFetched ps a).name = a.name := by
  unfold updateFetched
  split <;> rfl

theorem url_updateFetched (ps : Platforms) (a : RemoteAsset) :
    (updateFetched ps a).browser_download_url = a.browser_download_url := by
  unfold updateFetched
  split <;> rfl

theorem id_updateFetched (ps : Platforms) (a : RemoteAsset) :
    (updateFetched ps a).id = a.id := by
  unfold updateFetched
  split <;> rfl

theorem downloadUrlFor_setFetched (assets : List RemoteAsset) (ps : Platforms)
    (n : String) : downloadUrlFor (setFetched assets ps) n = downloadUrlFor assets n := by
  unfold downloadUrlFor setFetched
  rw [← List.map_reverse, List.find?_map]
  have hp : ((fun a : RemoteAsset => a.name == n) ∘ updateFetched ps)
      = (fun a : RemoteAsset => a.name == n) := by
    funext a
    simp [Function.comp, name_updateFetched]
  rw [hp]
  rcases h : assets.reverse.find? (fun a => a.name == n) with _ | a
  · rw [h]; rfl
  · rw [h]
    simp [url_updateFetched]

theorem matchAssets_setFetched (artifacts : List Artifact)
    (assets : List RemoteAsset) (ps : Platforms) :
    matchAssets artifacts (setFetched assets ps) = matchAssets artifacts assets := by
  unfold matchAssets
  simp only [downloadUrlFor_setFetched]

theorem page_secondRun (i : RunInput) (ps : Platforms) (t2 : String) :
    page { i with allAssets := setFetched i.allAssets ps, now := t2 }
      = setFetched (page i) ps := by
  unfold page listReleaseAssets setFetched
  exact (List.map_take _ _ _).symm

theorem filteredAssets_secondRun (i : RunInput) (ps : Platforms) (t2 : String) :
    filteredAssets { i with allAssets := setFetched i.allAssets ps, now := t2 }
      = filteredAssets i := by
  unfold filteredAssets
  rw [page_secondRun, matchAssets_setFetched]

theorem selectedSignature_secondRun (i : RunInput) (ps : Platforms) (t2 : String) :
    selectedSignature { i with allAssets := setFetched i.allAssets ps, now := t2 }
      = selectedSignature i := by
  unfold selectedSignature sortedSignatureFiles signatureFiles
  rw [filteredAssets_secondRun]

theorem companionUrl_secondRun (i : RunInput) (ps : Platforms) (t2 : String) :
    companionUrl { i with allAssets := setFetched i.allAssets ps, now := t2 }
      = companionUrl i := by
  unfold companionUrl companion
  rw [selectedSignature_secondRun, filteredAssets_secondRun]

theorem existingAsset_secondRun (i : RunInput) (ps : Platforms) (t2 : String) :
    existingAsset { i with allAssets := setFetched i.allAssets ps, now := t2 }
      = (existingAsset i).map (updateFetched ps) := by
  unfold existingAsset
  rw [page_secondRun]
  unfold setFetched
  rw [List.find?_map]
  have hp : ((fun e : RemoteAsset => e.name == versionFilename) ∘ updateFetched ps)
      = fun e : RemoteAsset => e.name == versionFilename := by
    funext a
    simp [Function.comp, name_updateFetched]
  rw [hp]

/-- C1: running the reconciliation a second time with identical inputs,
with the manifest published by the first run being the one fetched from the
release, yields an output manifest whose platforms map is byte-identical to
the first run's (the association list is equal entry for entry and in
order), with version and notes equal as well; only the pub_date field
follows the second run's clock. -/
theorem reconciliation_idempotent (i : RunInput) (t2 : String) (a : RemoteAsset)
    (r1 : RunResult) (m1 : VersionContent)
    (ha : existingAsset i = some a)
    (h1 : uploadVersionJSON i = Except.ok r1)
    (hw : r1.written = some m1) :
    ∃ r2 m2,
      uploadVersionJSON { i with allAssets := setFetched i.allAssets m1.platforms, now := t2 }
        = Except.ok r2
      ∧ r2.written = some m2
      ∧ m2.platforms = m1.platforms
      ∧ m2.version = m1.version
      ∧ m2.notes = m1.notes := by
  unfold uploadVersionJSON at h1
  rw [ha] at h1
  change (match a.fetched with
      | Except.error e => Except.error e
      | Except.ok platforms0 => Except.ok (reconcile i platforms0 (some a.id)))
      = Except.ok r1 at h1
  cases hf : a.fetched with
  | error e =>
    rw [hf] at h1
    change Except.error e = Except.ok r1 at h1
    exact absurd h1 (by simp)
  | ok E =>
    rw [hf] at h1
    change Except.ok (reconcile i E (some a.id)) = Except.ok r1 at h1
    have hr1 : r1 = reconcile i E (some a.id) := by
      injection h1 with h
      exact h.symm
    subst hr1
    unfold reconcile at hw
    cases hsel : selectedSignature i with
    | none => rw [hsel] at hw; simp at hw
    | some sf =>
      rw [hsel] at hw
      cases hcu : companionUrl i with
      | none => rw [hcu] at hw; simp at hw
      | some url =>
        rw [hcu] at hw
        simp only [Option.some_inj] at hw
        have haname : (a.name == versionFilename) = true :=
          @List.find?_some RemoteAsset (fun e => e.name == versionFilename) a (page i)
            (show (page i).find? (fun e => e.name == versionFilename) = some a from ha)
        have hm1p : m1.platforms = applyPlatformWrites E (resolveOs i.targetInfo.platform)
            (resolveArch sf.arch) i.updaterJsonKeepUniversal (i.readFile sf.path) url := by
          rw [← hw]
        have hex2 :
            existingAsset
              { i with allAssets := setFetched i.allAssets m1.platforms, now := t2 }
              = some (updateFetched m1.platforms a) := by
          rw [existingAsset_secondRun, ha]
          rfl
        have hfetched : (updateFetched m1.platforms a).fetched = Except.ok m1.platforms := by
          unfold updateFetched
          rw [if_pos haname]
        refine ⟨reconcile { i with allAssets := setFetched i.allAssets m1.platforms, now := t2 }
            m1.platforms (some (updateFetched m1.platforms a).id),
          { version := i.version, notes := i.notes, pub_date := t2,
            platforms := applyPlatformWrites m1.platforms (resolveOs i.targetInfo.platform)
              (resolveArch sf.arch) i.updaterJsonKeepUniversal (i.readFile sf.path) url },
          ?_, ?_, ?_, ?_, ?_⟩
        · unfold uploadVersionJSON
          rw [hex2]
          show (match (updateFetched m1.platforms a).fetched with
              | Except.error e => Except.error e
              | Except.ok platforms0 =>
                  Except.ok (reconcile
                    { i with allAssets := setFetched i.allAssets m1.platforms, now := t2 }
                    platforms0 (some (updateFetched m1.platforms a).id)))
            = Except.ok (reconcile
                { i with allAssets := setFetched i.allAssets m1.platforms, now := t2 }
                m1.platforms (some (updateFetched m1.platforms a).id))
          rw [hfetched]
        · unfold reconcile
          rw [selectedSignature_secondRun, hsel, companionUrl_secondRun, hcu]
        · show applyPlatformWrites m1.platforms (resolveOs i.targetInfo.platform)
            (resolveArch sf.arch) i.updaterJsonKeepUniversal (i.readFile sf.path) url
              = m1.platforms
          rw [hm1p, applyPlatformWrites_idem]
        · rw [← hw]
        · rw [← hw]

/-- C1 witness: the concrete example run, rerun with its own published
platform map. -/
theorem reconciliation_idempotent_witness :
    ∃ r2 m2,
      uploadVersionJSON { exRun with
          allAssets := setFetched exRun.allAssets
            [("windows-x86_64", ⟨"SIG", "https://h/download/v1/app.msi.zip"⟩)],
          now := "t2" }
        = Except.ok r2
      ∧ r2.written = some m2
      ∧ m2.platforms = [("windows-x86_64", ⟨"SIG", "https://h/download/v1/app.msi.zip"⟩)]
      ∧ m2.version = "1.0"
      ∧ m2.notes = "notes" :=
  reconciliation_idempotent exRun "t2" ⟨"latest.json", "u0", 7, Except.ok []⟩
    { written := some
        { version := "1.0", notes := "notes", pub_date := "t1",
          platforms := [("windows-x86_64", ⟨"SIG", "https://h/download/v1/app.msi.zip"⟩)] },
      deletedAssetId := some 7, uploaded := true }
    { version := "1.0", notes := "notes", pub_date := "t1",
      platforms := [("windows-x86_64", ⟨"SIG", "https://h/download/v1/app.msi.zip"⟩)] }
    rfl rfl rfl

/-! ## Skip paths and error paths -/

theorem reconcile_noop_of_no_signature (i : RunInput) (platforms0 : Platforms)
    (existingId : Option Nat) (h : signatureFiles i = []) :
    reconcile i platforms0 existingId
      = { written := none, deletedAssetId := none, uploaded := false } := by
  have hsel : selectedSignature i = none := by
    unfold selectedSignature sortedSignatureFiles
    rw [h]
    rfl
  unfold reconcile
  rw [hsel]

/-- C7: when no matched asset has a normalized name ending in `.sig`, and
the existing-manifest fetch (if a manifest asset exists at all) does not
itself fail, the run ends successfully having written no local manifest
file, deleted no remote asset and uploaded nothing. -/
theorem no_signature_is_successful_noop (i : RunInput)
    (hfetch : ∀ a, existingAsset i = some a → ∃ ps, a.fetched = Except.ok ps)
    (h : signatureFiles i = []) :
    uploadVersionJSON i
      = Except.ok { written := none, deletedAssetId := none, uploaded := false } := by
  unfold uploadVersionJSON
  cases ha : existingAsset i with
  | none => rw [reconcile_noop_of_no_signature i [] none h]
  | some a =>
    obtain ⟨ps, hps⟩ := hfetch a ha
    change (match a.fetched with
        | Except.error e => Except.error e
        | Except.ok platforms0 => Except.ok (reconcile i platforms0 (some a.id)))
      = Except.ok { written := none, deletedAssetId := none, uploaded := false }
    rw [hps]
    change Except.ok (reconcile i ps (some a.id))
      = Except.ok { written := none, deletedAssetId := none, uploaded := false }
    rw [reconcile_noop_of_no_signature i ps (some a.id) h]

/-- C7 witness: the example run with no artifacts. -/
theorem no_signature_is_successful_noop_witness :
    uploadVersionJSON { exRun with artifacts := [] }
      = Except.ok { written := none, deletedAssetId := none, uploaded := false } :=
  no_signature_is_successful_noop { exRun with artifacts := [] }
    (fun a ha => ⟨[], by
      have : a = ⟨"latest.json", "u0", 7, Except.ok []⟩ := by
        have h := ha
        rw [show existingAsset { exRun with artifacts := [] }
          = some ⟨"latest.json", "u0", 7, Except.ok []⟩ from rfl] at h
        injection h with h
        exact h.symm
      rw [this]⟩)
    rfl

/-- C8: when a `latest.json` asset exists on the first page and parsing its
fetched content fails, the whole run fails with that parse error; in this
model an erroneous run performs no effect at all (no matching result is
consumed, no file is written, nothing is deleted or uploaded), and in
particular the run never falls back to an empty platform map. -/
theorem malformed_manifest_is_fatal (i : RunInput) (a : RemoteAsset) (e : String)
    (ha : existingAsset i = some a) (he : a.fetched = Except.error e) :
    uploadVersionJSON i = Except.error e
      ∧ ∀ r : RunResult, uploadVersionJSON i ≠ Except.ok r := by
  have hrun : uploadVersionJSON i = Except.error e := by
    unfold uploadVersionJSON
    rw [ha]
    change (match a.fetched with
        | Except.error e => Except.error e
        | Except.ok platforms0 => Except.ok (reconcile i platforms0 (some a.id)))
      = Except.error e
    rw [he]
  refine ⟨hrun, ?_⟩
  intro r hr
  rw [hrun] at hr
  exact Except.noConfusion hr

/-- C8 witness: the example run with an unparsable manifest asset. -/
theorem malformed_manifest_is_fatal_witness :
    uploadVersionJSON exBad = Except.error "unexpected token"
      ∧ ∀ r : RunResult, uploadVersionJSON exBad ≠ Except.ok r :=
  malformed_manifest_is_fatal exBad
    ⟨"latest.json", "u0", 7, Except.error "unexpected token"⟩ "unexpected token" rfl rfl

/-- Membership in the matched set forces a first-page download URL. -/
theorem mem_matchAssets_downloadUrl (artifacts : List Artifact)
    (assets : List RemoteAsset) (ma : MatchedAsset)
    (h : ma ∈ matchAssets artifacts assets) :
    ∃ url, downloadUrlFor assets ma.assetName = some url := by
  unfold matchAssets at h
  obtain ⟨art, _, hart⟩ := List.mem_filterMap.1 h
  dsimp only at hart
  rcases hd : downloadUrlFor assets (normalizeAssetName art.path) with _ | url
  · rw [hd] at hart
    exact absurd hart (by simp)
  · rw [hd] at hart
    change (if url = "" then none
        else some { downloadUrl := url, assetName := normalizeAssetName art.path,
                    path := art.path, arch := art.arch }) = some ma at hart
    by_cases hurl : url = ""
    · rw [if_pos hurl] at hart
      exact absurd hart (by simp)
    · rw [if_neg hurl] at hart
      have hname : ma.assetName = normalizeAssetName art.path := by
        injection hart with h2
        rw [← h2]
      rw [hname, hd]
      exact ⟨url, rfl⟩

/-- C10: the run lists assets once with page size 50 and never paginates,
so only the first 50 assets of the release participate: if no asset of the
first page is named `latest.json` (even though a later asset is), no
existing manifest is detected, the merge starts from an empty platform map
and nothing is deleted; and an artifact whose normalized name only matches
an asset beyond the first page produces no matched asset. -/
theorem single_page_of_fifty (i : RunInput)
    (h50 : ∀ x ∈ i.allAssets.take 50, x.name ≠ versionFilename)
    (_hbeyond : ∃ x ∈ i.allAssets, x.name = versionFilename) :
    listReleaseAssets i.allAssets = i.allAssets.take 50
      ∧ existingAsset i = none
      ∧ uploadVersionJSON i = Except.ok (reconcile i [] none)
      ∧ (∀ r : RunResult, uploadVersionJSON i = Except.ok r → r.deletedAssetId = none)
      ∧ (∀ art ∈ i.artifacts,
          (∀ x ∈ i.allAssets.take 50, x.name ≠ normalizeAssetName art.path) →
          ∀ ma ∈ filteredAssets i, ma.assetName ≠ normalizeAssetName art.path) := by
  have hex : existingAsset i = none := by
    unfold existingAsset page listReleaseAssets
    rw [List.find?_eq_none]
    intro x hx
    simp only [Bool.not_eq_true, beq_eq_false_iff_ne]
    exact h50 x hx
  have hrun : uploadVersionJSON i = Except.ok (reconcile i [] none) := by
    unfold uploadVersionJSON
    rw [hex]
  have hdel : (reconcile i [] none).deletedAssetId = none := by
    unfold reconcile
    cases selectedSignature i with
    | none => rfl
    | some sf =>
      cases companionUrl i with
      | none => rfl
      | some url => rfl
  refine ⟨rfl, hex, hrun, ?_, ?_⟩
  · intro r hr
    rw [hrun] at hr
    injection hr with hr
    rw [← hr]
    exact hdel
  · intro art _ hname ma hma hcontra
    obtain ⟨url, hurl⟩ := mem_matchAssets_downloadUrl i.artifacts (page i) ma hma
    rw [hcontra] at hurl
    unfold downloadUrlFor at hurl
    rcases hfind : (page i).reverse.find? (fun a => a.name == normalizeAssetName art.path)
      with _ | x
    · rw [hfind] at hurl
      exact Option.noConfusion hurl
    · have hxmem : x ∈ (page i).reverse := List.mem_of_find?_eq_some hfind
      have hxname : (x.name == normalizeAssetName art.path) = true :=
        @List.find?_some RemoteAsset (fun a => a.name == normalizeAssetName art.path)
          x (page i).reverse hfind
      have : x.name ≠ normalizeAssetName art.path := by
        apply hname
        rw [← show page i = i.allAssets.take 50 from rfl]
        exact List.mem_reverse.1 hxmem
      exact this (by simpa using hxname)

/-- C10 witness: the example release with 52 assets, whose manifest asset
and signature asset sit beyond the first page. -/
theorem single_page_of_fifty_witness :
    listReleaseAssets exBig.allAssets = exBig.allAssets.take 50
      ∧ existingAsset exBig = none
      ∧ uploadVersionJSON exBig = Except.ok (reconcile exBig [] none)
      ∧ (∀ r : RunResult, uploadVersionJSON exBig = Except.ok r → r.deletedAssetId = none)
      ∧ (∀ art ∈ exBig.artifacts,
          (∀ x ∈ exBig.allAssets.take 50, x.name ≠ normalizeAssetName art.path) →
          ∀ ma ∈ filteredAssets exBig, ma.assetName ≠ normalizeAssetName art.path) :=
  single_page_of_fifty exBig (by decide)
    ⟨⟨"latest.json", "u0", 100, Except.ok []⟩,
      List.mem_append.2 (Or.inr (List.mem_cons_self _ _)), rfl⟩

/-! ## The selection picks the first maximal-priority signature -/

theorem jsSortBy_head_spec {α : Type} (pr : α → Nat) :
    ∀ (x : α) (xs : List α),
    ∃ w, (jsSortBy (fun a b => decide (pr b ≤ pr a)) (x :: xs)).head? = some w
      ∧ w ∈ x :: xs
      ∧ (∀ z ∈ x :: xs, pr z ≤ pr w)
      ∧ (x :: xs).find? (fun z => pr z == pr w) = some w := by
  intro x xs
  induction xs generalizing x with
  | nil =>
    refine ⟨x, rfl, List.mem_cons_self _ _, ?_, ?_⟩
    · intro z hz
      rw [List.mem_singleton.1 hz]
    · simp [List.find?]
  | cons y ys ih =>
    obtain ⟨w', hw1, hw2, hw3, hw4⟩ := ih y
    rcases hs : jsSortBy (fun a b => decide (pr b ≤ pr a)) (y :: ys) with _ | ⟨z, t⟩
    · rw [hs] at hw1
      exact absurd hw1 (by simp)
    · rw [hs] at hw1
      have hzw : z = w' := by
        injection hw1 with hzw
      subst hzw
      by_cases hle : pr z ≤ pr x
      · refine ⟨x, ?_, List.mem_cons_self _ _, ?_, ?_⟩
        · show (orderedInsert (fun a b => decide (pr b ≤ pr a)) x
            (jsSortBy (fun a b => decide (pr b ≤ pr a)) (y :: ys))).head? = some x
          rw [hs]
          unfold orderedInsert
          rw [if_pos (by simpa using hle)]
          rfl
        · intro a ha
          rcases List.mem_cons.1 ha with rfl | ha
          · exact Nat.le_refl _
          · exact Nat.le_trans (hw3 a ha) hle
        · show List.find? (fun b => pr b == pr x) (x :: y :: ys) = some x
          rw [List.find?_cons_of_pos]
          simp
      · have hlt : pr x < pr z := Nat.lt_of_not_le hle
        refine ⟨z, ?_, List.mem_cons_of_mem _ hw2, ?_, ?_⟩
        · show (orderedInsert (fun a b => decide (pr b ≤ pr a)) x
            (jsSortBy (fun a b => decide (pr b ≤ pr a)) (y :: ys))).head? = some z
          rw [hs]
          unfold orderedInsert
          rw [if_neg (by simpa using hle)]
          rfl
        · intro a ha
          rcases List.mem_cons.1 ha with rfl | ha
          · exact Nat.le_of_lt hlt
          · exact hw3 a ha
        · show List.find? (fun b => pr b == pr z) (x :: y :: ys) = some z
          rw [List.find?_cons_of_neg]
          · exact hw4
          · simp
            exact Nat.ne_of_lt hlt

/-- C3: for every non-empty signature list, the selected winner is the one
a stable descending sort by `signaturePriority` places first: it is an
element of the list of maximal priority, and it is the first element of the
list attaining that priority (ties keep input order); the priority is
computed from the artifact's local path. -/
theorem winning_signature_selection (i : RunInput) (h : signatureFiles i ≠ []) :
    ∃ w, selectedSignature i = some w
      ∧ w ∈ signatureFiles i
      ∧ (∀ x ∈ signatureFiles i,
          signaturePriority i.updaterJsonPreferNsis x.path
            ≤ signaturePriority i.updaterJsonPreferNsis w.path)
      ∧ (signatureFiles i).find?
          (fun x => signaturePriority i.updaterJsonPreferNsis x.path
            == signaturePriority i.updaterJsonPreferNsis w.path) = some w := by
  rcases hl : signatureFiles i with _ | ⟨x, xs⟩
  · exact absurd hl h
  · obtain ⟨w, h1, h2, h3, h4⟩ := jsSortBy_head_spec
      (fun a : MatchedAsset => signaturePriority i.updaterJsonPreferNsis a.path) x xs
    refine ⟨w, ?_, h2, h3, h4⟩
    show (jsSortBy (signatureLe i.updaterJsonPreferNsis) (signatureFiles i)).head? = some w
    rw [hl]
    exact h1

/-- C3 witness: three signature artifacts, one per installer family, with
preferNsis unset; the msi signature wins. -/
theorem winning_signature_selection_witness :
    ∃ w, selectedSignature exThree = some w
      ∧ w ∈ signatureFiles exThree
      ∧ (∀ x ∈ signatureFiles exThree,
          signaturePriority exThree.updaterJsonPreferNsis x.path
            ≤ signaturePriority exThree.updaterJsonPreferNsis w.path)
      ∧ (signatureFiles exThree).find?
          (fun x => signaturePriority exThree.updaterJsonPreferNsis x.path
            == signaturePriority exThree.updaterJsonPreferNsis w.path) = some w :=
  winning_signature_selection exThree (by decide)

/-! ## One collapse pass versus full collapse -/

/-- C4 counterexample: the path whose base name is the five characters
`a`, space, `(`, `)`, `b` replaces to three adjacent dots; the single
global two-dots-to-one pass of the code leaves two adjacent dots, while
repeated collapsing yields one, so the two normalizations differ and the
normalized name does contain two adjacent dots. -/
theorem normalize_single_pass_counterexample :
    normalizeAssetName "a ()b" = "a..b"
      ∧ normalizeAssetNameFullCollapse "a ()b" = "a.b"
      ∧ normalizeAssetName "a ()b" ≠ normalizeAssetNameFullCollapse "a ()b" :=
  ⟨rfl, rfl, by decide⟩

theorem noTripleDot_cons3_eq (c1 c2 c3 : Char) (rest : List Char) :
    noTripleDot (c1 :: c2 :: c3 :: rest)
      = if c1 = '.' ∧ c2 = '.' ∧ c3 = '.' then false
        else noTripleDot (c2 :: c3 :: rest) := rfl

theorem collapsePass_cons2_eq (c1 c2 : Char) (rest : List Char) :
    collapsePass (c1 :: c2 :: rest)
      = if c1 = '.' ∧ c2 = '.' then '.' :: collapsePass rest
        else c1 :: collapsePass (c2 :: rest) := rfl

theorem collapseAll_cons_eq (c : Char) (rest : List Char) :
    collapseAll (c :: rest)
      = if c = '.' then
          (match collapseAll rest with
            | '.' :: t => '.' :: t
            | r => '.' :: r)
        else c :: collapseAll rest := rfl

theorem noTripleDot_tail (c : Char) (l : List Char)
    (h : noTripleDot (c :: l) = true) : noTripleDot l = true := by
  rcases l with _ | ⟨c2, l2⟩
  · rfl
  rcases l2 with _ | ⟨c3, r⟩
  · rfl
  by_cases hc : c = '.' ∧ c2 = '.' ∧ c3 = '.'
  · rw [noTripleDot_cons3_eq, if_pos hc] at h
    exact absurd h (by simp)
  · rw [noTripleDot_cons3_eq, if_neg hc] at h
    exact h

theorem collapseAll_dot_cons (rest : List Char) :
    ∃ t, collapseAll ('.' :: rest) = '.' :: t := by
  rw [collapseAll_cons_eq, if_pos rfl]
  split
  · next t _ => exact ⟨t, rfl⟩
  · exact ⟨_, rfl⟩

theorem collapseAll_dot_dot (rest : List Char) :
    collapseAll ('.' :: '.' :: rest) = collapseAll ('.' :: rest) := by
  obtain ⟨t, ht⟩ := collapseAll_dot_cons rest
  rw [collapseAll_cons_eq, if_pos rfl, ht]
  rfl

theorem collapseAll_singleton (c : Char) : collapseAll [c] = [c] := by
  by_cases hc : c = '.'
  · subst hc
    rfl
  · rw [collapseAll_cons_eq, if_neg hc]
    rfl

theorem collapseAll_cons_of_ne (c1 c2 : Char) (rest : List Char)
    (h : ¬ (c1 = '.' ∧ c2 = '.')) :
    collapseAll (c1 :: c2 :: rest) = c1 :: collapseAll (c2 :: rest) := by
  by_cases h1 : c1 = '.'
  · subst h1
    have h2 : c2 ≠ '.' := fun hc => h ⟨rfl, hc⟩
    have hsub : collapseAll (c2 :: rest) = c2 :: collapseAll rest := by
      rw [collapseAll_cons_eq, if_neg h2]
    rw [collapseAll_cons_eq, if_pos rfl, hsub]
    split
    · next t heq =>
      exact absurd (List.head_eq_of_cons_eq heq) h2
    · rfl
  · rw [collapseAll_cons_eq, if_neg h1]

theorem collapsePass_eq_collapseAll (l : List Char)
    (htr : noTripleDot l = true) : collapsePass l = collapseAll l := by
  have main : ∀ (n : Nat) (l : List Char), l.length ≤ n →
      noTripleDot l = true → collapsePass l = collapseAll l := by
    intro n
    induction n with
    | zero =>
      intro l hlen _
      rw [List.length_eq_zero.1 (Nat.le_zero.1 hlen)]
      rfl
    | succ n ih =>
      intro l hlen htr
      rcases l with _ | ⟨c1, l1⟩
      · rfl
      rcases l1 with _ | ⟨c2, rest⟩
      · rw [collapseAll_singleton]
        rfl
      by_cases hdd : c1 = '.' ∧ c2 = '.'
      · obtain ⟨h1, h2⟩ := hdd
        subst h1; subst h2
        rw [collapsePass_cons2_eq, if_pos ⟨rfl, rfl⟩, collapseAll_dot_dot]
        rcases rest with _ | ⟨c3, r2⟩
        · rfl
        by_cases hc3 : c3 = '.'
        · exfalso
          rw [noTripleDot_cons3_eq, if_pos ⟨rfl, rfl, hc3⟩] at htr
          exact absurd htr (by simp)
        · rw [collapseAll_cons_of_ne '.' c3 r2 (fun hc => hc3 hc.2)]
          have hrec : collapsePass (c3 :: r2) = collapseAll (c3 :: r2) := by
            apply ih
            · have hlen3 : r2.length + 3 ≤ n + 1 := by simpa using hlen
              simp only [List.length_cons]
              omega
            · exact noTripleDot_tail _ _ (noTripleDot_tail _ _ htr)
          rw [hrec]
      · rw [collapsePass_cons2_eq, if_neg hdd, collapseAll_cons_of_ne c1 c2 rest hdd]
        have hrec : collapsePass (c2 :: rest) = collapseAll (c2 :: rest) := by
          apply ih
          · have hlen2 : rest.length + 2 ≤ n + 1 := by simpa using hlen
            simp only [List.length_cons]
            omega
          · exact noTripleDot_tail _ _ htr
        rw [hrec]
  exact main l.length l (Nat.le_refl _) htr

/-- C4 amended: a single collapse pass agrees with collapsing repeatedly
until no adjacent dots remain for exactly those paths whose trimmed base
name, after the bracket-and-space replacement, contains no run of three or
more adjacent dots; in general the single pass only halves each run of
dots and the normalized name may retain two adjacent dots. -/
theorem normalize_single_pass_amended (p : String)
    (h : noTripleDot (replaceBrackets (jsTrim (getAssetName p).toList)) = true) :
    normalizeAssetName p = normalizeAssetNameFullCollapse p := by
  unfold normalizeAssetName normalizeAssetNameFullCollapse
  rw [collapsePass_eq_collapseAll _ h]

/-- C4 amended witness: a typical installer name with spaces and brackets
satisfies the no-triple-dot condition and normalizes identically under
both variants. -/
theorem normalize_single_pass_amended_witness :
    noTripleDot (replaceBrackets (jsTrim (getAssetName "my app (x64).msi").toList)) = true
      ∧ normalizeAssetName "my app (x64).msi"
          = normalizeAssetNameFullCollapse "my app (x64).msi" :=
  ⟨by decide, normalize_single_pass_amended "my app (x64).msi" (by decide)⟩

/-! ## The untagged-URL rewrite -/

theorem takeWhile_all_append (p : Char → Bool) (l1 l2 : List Char) (c : Char)
    (h1 : ∀ x ∈ l1, p x = true) (hc : p c = false) :
    (l1 ++ c :: l2).takeWhile p = l1 := by
  induction l1 with
  | nil => simp [List.takeWhile_cons, hc]
  | cons x xs ih =>
    rw [List.cons_append, List.takeWhile_cons, if_pos (h1 x (List.mem_cons_self _ _))]
    rw [ih (fun y hy => h1 y (List.mem_cons_of_mem _ hy))]

theorem dropWhile_all_append (p : Char → Bool) (l1 l2 : List Char) (c : Char)
    (h1 : ∀ x ∈ l1, p x = true) (hc : p c = false) :
    (l1 ++ c :: l2).dropWhile p = c :: l2 := by
  induction l1 with
  | nil => simp [List.dropWhile_cons, hc]
  | cons x xs ih =>
    rw [List.cons_append, List.dropWhile_cons, if_pos (h1 x (List.mem_cons_self _ _))]
    exact ih (fun y hy => h1 y (List.mem_cons_of_mem _ hy))

theorem matchUntaggedAt_append (mid a : List Char) (hmid : mid ≠ []) (hns : '/' ∉ mid) :
    matchUntaggedAt ("/download/untagged-".toList ++ mid ++ '/' :: a)
      = some ("/download/untagged-".toList ++ mid ++ ['/'],
          "untagged-".toList ++ mid, a) := by
  have hall : ∀ x ∈ mid, (x != '/') = true := by
    intro x hx
    have hne : x ≠ '/' := fun he => hns (he ▸ hx)
    simpa using hne
  have hslash : (('/' : Char) != '/') = false := by decide
  have hpre : ("/download/untagged-".toList).isPrefixOf
      ("/download/untagged-".toList ++ mid ++ '/' :: a) = true := by
    rw [List.isPrefixOf_iff_prefix]
    exact ⟨mid ++ '/' :: a, by simp⟩
  have hdrop : ("/download/untagged-".toList ++ mid ++ '/' :: a).drop 19 = mid ++ '/' :: a := by
    rw [List.append_assoc]
    exact List.drop_left "/download/untagged-".toList (mid ++ '/' :: a)
  unfold matchUntaggedAt
  rw [if_pos hpre]
  dsimp only
  rw [hdrop, takeWhile_all_append _ _ _ _ hall hslash,
    dropWhile_all_append _ _ _ _ hall hslash]
  rw [if_pos ⟨List.length_pos.2 hmid, rfl⟩]
  rfl

theorem matchUntaggedAt_some (l m g a : List Char)
    (h : matchUntaggedAt l = some (m, g, a)) :
    ∃ mid, mid ≠ [] ∧ '/' ∉ mid
      ∧ m = "/download/untagged-".toList ++ mid ++ ['/']
      ∧ g = "untagged-".toList ++ mid
      ∧ l = m ++ a := by
  unfold matchUntaggedAt at h
  by_cases hpre : ("/download/untagged-".toList).isPrefixOf l = true
  case neg =>
    rw [if_neg hpre] at h
    exact absurd h (by simp)
  rw [if_pos hpre] at h
  dsimp only at h
  by_cases hcond : ((l.drop 19).takeWhile (fun c => c != '/')).length > 0
      ∧ ((l.drop 19).dropWhile (fun c => c != '/')).head? = some '/'
  case neg =>
    rw [if_neg hcond] at h
    exact absurd h (by simp)
  rw [if_pos hcond] at h
  obtain ⟨hc1, hc2⟩ := hcond
  simp only [Option.some_inj, Prod.mk.injEq] at h
  obtain ⟨hm0, hg0, ha⟩ := h
  have hm : m = "/download/untagged-".toList
      ++ (l.drop 19).takeWhile (fun c => c != '/') ++ ['/'] := hm0.symm
  have hg : g = "untagged-".toList ++ (l.drop 19).takeWhile (fun c => c != '/') := hg0.symm
  obtain ⟨t, ht⟩ := List.isPrefixOf_iff_prefix.1 hpre
  have hdrop : l.drop 19 = t := by
    rw [← ht]
    exact List.drop_left "/download/untagged-".toList t
  rw [hdrop] at hm hg ha hc1 hc2
  rcases hdw : t.dropWhile (fun c => c != '/') with _ | ⟨r0, rt⟩
  · rw [hdw] at hc2
    exact absurd hc2 (by simp)
  rw [hdw] at hc2 ha
  have hr0 : r0 = '/' := by
    simpa using hc2
  subst hr0
  have hta : a = rt := by
    rw [← ha]
    rfl
  have hsplit : t.takeWhile (fun c => c != '/') ++ '/' :: rt = t := by
    rw [← hdw]
    exact List.takeWhile_append_dropWhile _ _
  refine ⟨t.takeWhile (fun c => c != '/'), List.length_pos.1 hc1, ?_, hm, hg, ?_⟩
  · intro hmem
    have hx := List.mem_takeWhile_imp hmem
    simp at hx
  · rw [hta, hm, ← ht]
    conv_lhs => rw [← hsplit]
    simp

theorem findUntagged_cons_eq (c : Char) (rest : List Char) :
    findUntagged (c :: rest)
      = (match matchUntaggedAt (c :: rest) with
        | some (m, g, a) => some ([], m, g, a)
        | none =>
          match findUntagged rest with
          | some (b, m, g, a) => some (c :: b, m, g, a)
          | none => none) := rfl

theorem findUntagged_some : ∀ (l b m g a : List Char),
    findUntagged l = some (b, m, g, a) →
    l = b ++ m ++ a
      ∧ ∃ mid, mid ≠ [] ∧ '/' ∉ mid
          ∧ m = "/download/untagged-".toList ++ mid ++ ['/']
          ∧ g = "untagged-".toList ++ mid := by
  intro l
  induction l with
  | nil =>
    intro b m g a h
    exact absurd h (by simp [findUntagged])
  | cons c rest ih =>
    intro b m g a h
    rw [findUntagged_cons_eq] at h
    cases hm : matchUntaggedAt (c :: rest) with
    | some v =>
      obtain ⟨m0, g0, a0⟩ := v
      rw [hm] at h
      simp only [Option.some_inj, Prod.mk.injEq] at h
      obtain ⟨hb, hm1, hg1, ha1⟩ := h
      obtain ⟨mid, hmid, hns, hmeq, hgeq, hleq⟩ :=
        matchUntaggedAt_some (c :: rest) m0 g0 a0 hm
      subst hb
      refine ⟨?_, mid, hmid, hns, hm1 ▸ hmeq, hg1 ▸ hgeq⟩
      rw [← hm1, ← ha1, hleq]
      simp
    | none =>
      rw [hm] at h
      cases hf : findUntagged rest with
      | none =>
        rw [hf] at h
        exact absurd h (by simp)
      | some w =>
        obtain ⟨b0, m0, g0, a0⟩ := w
        rw [hf] at h
        simp only [Option.some_inj, Prod.mk.injEq] at h
        obtain ⟨hb, hm1, hg1, ha1⟩ := h
        obtain ⟨hsplit, mid, hmid, hns, hmeq, hgeq⟩ := ih b0 m0 g0 a0 hf
        refine ⟨?_, mid, hmid, hns, hm1 ▸ hmeq, hg1 ▸ hgeq⟩
        rw [← hb, ← hm1, ← ha1, List.cons_append, List.cons_append, hsplit]

theorem findUntagged_of_decomposition (mid a : List Char)
    (hmid : mid ≠ []) (hns : '/' ∉ mid) :
    ∀ (b l : List Char),
    l = b ++ ("/download/untagged-".toList ++ mid ++ ['/']) ++ a →
    ∃ r, findUntagged l = some r := by
  intro b
  induction b with
  | nil =>
    intro l hl
    have hshape : l = "/download/untagged-".toList ++ mid ++ '/' :: a := by
      rw [hl]
      simp
    have hmatch := matchUntaggedAt_append mid a hmid hns
    subst hshape
    have heq : findUntagged ("/download/untagged-".toList ++ mid ++ '/' :: a)
        = (match matchUntaggedAt ("/download/untagged-".toList ++ mid ++ '/' :: a) with
          | some (m, g, aa) => some ([], m, g, aa)
          | none =>
            match findUntagged ("download/untagged-".toList ++ mid ++ '/' :: a) with
            | some (bb, m, g, aa) => some ('/' :: bb, m, g, aa)
            | none => none) := rfl
    rw [heq, hmatch]
    exact ⟨_, rfl⟩
  | cons b0 bt ih =>
    intro l hl
    have hshape : l = b0 :: (bt ++ ("/download/untagged-".toList ++ mid ++ ['/']) ++ a) := by
      rw [hl]
      simp
    subst hshape
    rw [findUntagged_cons_eq]
    obtain ⟨r, hr⟩ := ih (bt ++ ("/download/untagged-".toList ++ mid ++ ['/']) ++ a) rfl
    cases hm : matchUntaggedAt
        (b0 :: (bt ++ ("/download/untagged-".toList ++ mid ++ ['/']) ++ a)) with
    | some v =>
      obtain ⟨m0, g0, a0⟩ := v
      exact ⟨_, rfl⟩
    | none =>
      obtain ⟨b1, m1, g1, a1⟩ := r
      rw [hr]
      exact ⟨_, rfl⟩

theorem jsExpandReplacement_cons2_eq (matched before after group1 : List Char)
    (c0 c : Char) (rest : List Char) :
    jsExpandReplacement matched before after group1 (c0 :: c :: rest)
      = if c0 = '$' then
          if c = '$' then '$' :: jsExpandReplacement matched before after group1 rest
          else if c = '&' then matched ++ jsExpandReplacement matched before after group1 rest
          else if c = Char.ofNat 96 then
            before ++ jsExpandReplacement matched before after group1 rest
          else if c = Char.ofNat 39 then
            after ++ jsExpandReplacement matched before after group1 rest
          else if c = '1' then group1 ++ jsExpandReplacement matched before after group1 rest
          else '$' :: c :: jsExpandReplacement matched before after group1 rest
        else c0 :: jsExpandReplacement matched before after group1 (c :: rest) := rfl

theorem jsExpandReplacement_no_dollar (matched before after group1 : List Char) :
    ∀ repl : List Char, '$' ∉ repl →
    jsExpandReplacement matched before after group1 repl = repl := by
  have main : ∀ (n : Nat) (repl : List Char), repl.length ≤ n → '$' ∉ repl →
      jsExpandReplacement matched before after group1 repl = repl := by
    intro n
    induction n with
    | zero =>
      intro repl hlen _
      rw [List.length_eq_zero.1 (Nat.le_zero.1 hlen)]
      rfl
    | succ n ih =>
      intro repl hlen hd
      rcases repl with _ | ⟨c0, r1⟩
      · rfl
      rcases r1 with _ | ⟨c, rest⟩
      · rfl
      have hc0 : c0 ≠ '$' := fun he => hd (he ▸ List.mem_cons_self _ _)
      rw [jsExpandReplacement_cons2_eq, if_neg hc0]
      have hrec : jsExpandReplacement matched before after group1 (c :: rest) = c :: rest := by
        apply ih
        · have hlen2 : rest.length + 2 ≤ n + 1 := by simpa using hlen
          simp only [List.length_cons]
          omega
        · exact fun hmem => hd (List.mem_cons_of_mem _ hmem)
      rw [hrec]
  exact fun repl => main repl.length repl (Nat.le_refl _)

/-- C5 counterexample: for the tag name consisting of two dollar signs the
replacement string is subject to JavaScript dollar substitution, so the
rewritten URL carries a single dollar sign where the claim promises the
literal tag: the segment is not replaced by `/download/` tag `/`. -/
theorem rewrite_untagged_counterexample :
    rewriteUntagged "https://h/download/untagged-a/f.zip" "$$"
        = "https://h/download/$/f.zip"
      ∧ rewriteUntagged "https://h/download/untagged-a/f.zip" "$$"
        ≠ "https://h/download/$$/f.zip" :=
  ⟨rfl, by decide⟩

/-- C5 amended: for every URL, and every tag name containing no dollar sign
(dollar sequences in the replacement string are interpreted by the
JavaScript replace builtin), a URL without a `/download/untagged-X/`
segment passes through unchanged, and a URL with such a segment has it
replaced by `/download/` tag `/` for a non-empty tag and by
`/latest/download/` for an empty one. -/
theorem rewrite_untagged_amended (url tagName : String)
    (hd : '$' ∉ tagName.toList) :
    (¬ hasUntaggedSegment url → rewriteUntagged url tagName = url)
    ∧ (hasUntaggedSegment url →
        ∃ b mid a,
          url.toList = b ++ ("/download/untagged-".toList ++ mid ++ ['/']) ++ a
          ∧ mid ≠ [] ∧ '/' ∉ mid
          ∧ (rewriteUntagged url tagName).toList
              = b ++ (if tagName = "" then "/latest/download/".toList
                      else "/download/".toList ++ tagName.toList ++ ['/']) ++ a) := by
  constructor
  · intro hno
    cases hf : findUntagged url.toList with
    | none =>
      unfold rewriteUntagged
      rw [hf]
    | some r =>
      obtain ⟨b, m, g, a⟩ := r
      exfalso
      obtain ⟨hl, mid, hmid, hns, hmeq, hgeq⟩ := findUntagged_some url.toList b m g a hf
      refine hno ⟨b, mid, a, ?_, hmid, hns⟩
      rw [hl, hmeq]
  · intro hyes
    obtain ⟨b, mid, a, hurl, hmid, hns⟩ := hyes
    obtain ⟨r, hr⟩ := findUntagged_of_decomposition mid a hmid hns b url.toList hurl
    obtain ⟨b0, m0, g0, a0⟩ := r
    obtain ⟨hl0, mid0, hmid0, hns0, hmeq0, hgeq0⟩ :=
      findUntagged_some url.toList b0 m0 g0 a0 hr
    have hnodollar : '$' ∉ (if tagName = "" then "/latest/download/".toList
        else "/download/".toList ++ tagName.toList ++ ['/']) := by
      by_cases ht : tagName = ""
      · rw [if_pos ht]
        decide
      · rw [if_neg ht]
        intro hmem
        rcases List.mem_append.1 hmem with hmem | hmem
        · rcases List.mem_append.1 hmem with hmem | hmem
          · revert hmem
            decide
          · exact hd hmem
        · revert hmem
          decide
    refine ⟨b0, mid0, a0, ?_, hmid0, hns0, ?_⟩
    · rw [hl0, hmeq0]
    · unfold rewriteUntagged
      rw [hr, List.toList_asString,
        jsExpandReplacement_no_dollar m0 b0 a0 g0 _ hnodollar]

/-- C5 amended witness: the spec's own example URL and tag, and the same
URL with an empty tag, rewritten as claimed. -/
theorem rewrite_untagged_amended_witness :
    (¬ hasUntaggedSegment "https://h/download/untagged-abc123/f.zip" →
      rewriteUntagged "https://h/download/untagged-abc123/f.zip" "v1.2.3"
        = "https://h/download/untagged-abc123/f.zip")
    ∧ (hasUntaggedSegment "https://h/download/untagged-abc123/f.zip" →
        ∃ b mid a,
          "https://h/download/untagged-abc123/f.zip".toList
              = b ++ ("/download/untagged-".toList ++ mid ++ ['/']) ++ a
          ∧ mid ≠ [] ∧ '/' ∉ mid
          ∧ (rewriteUntagged "https://h/download/untagged-abc123/f.zip" "v1.2.3").toList
              = b ++ (if ("v1.2.3" : String) = "" then "/latest/download/".toList
                      else "/download/".toList ++ "v1.2.3".toList ++ ['/']) ++ a) :=
  rewrite_untagged_amended "https://h/download/untagged-abc123/f.zip" "v1.2.3" (by decide)

/-! ## The companion of the winning signature -/

theorem mem_jsTrim (c : Char) (l : List Char) (h : c ∈ jsTrim l) : c ∈ l := by
  unfold jsTrim at h
  have h1 := List.mem_reverse.1 h
  have h2 := (List.dropWhile_sublist _).mem h1
  have h3 := List.mem_reverse.1 h2
  exact (List.dropWhile_sublist _).mem h3

theorem mem_replaceBrackets (c : Char) (l : List Char)
    (h : c ∈ replaceBrackets l) : c = '.' ∨ c ∈ l := by
  unfold replaceBrackets at h
  obtain ⟨x, hx, hfx⟩ := List.mem_map.1 h
  by_cases hb : (x == ' ') = true ∨ (x == '(') = true ∨ (x == ')') = true
      ∨ (x == '[') = true ∨ (x == ']') = true ∨ (x == '{') = true ∨ (x == '}') = true
  · rw [if_pos hb] at hfx
    exact Or.inl hfx.symm
  · rw [if_neg hb] at hfx
    exact Or.inr (hfx ▸ hx)

theorem mem_collapsePass (c : Char) :
    ∀ l : List Char, c ∈ collapsePass l → c = '.' ∨ c ∈ l := by
  have main : ∀ (n : Nat) (l : List Char), l.length ≤ n →
      c ∈ collapsePass l → c = '.' ∨ c ∈ l := by
    intro n
    induction n with
    | zero =>
      intro l hlen h
      rw [List.length_eq_zero.1 (Nat.le_zero.1 hlen)] at h
      exact absurd h (by simp [collapsePass])
    | succ n ih =>
      intro l hlen h
      rcases l with _ | ⟨c1, l1⟩
      · exact absurd h (by simp [collapsePass])
      rcases l1 with _ | ⟨c2, rest⟩
      · exact Or.inr h
      by_cases hdd : c1 = '.' ∧ c2 = '.'
      · rw [collapsePass_cons2_eq, if_pos hdd] at h
        rcases List.mem_cons.1 h with rfl | h
        · exact Or.inl rfl
        · rcases ih rest (by simp only [List.length_cons] at hlen ⊢; omega) h with h | h
          · exact Or.inl h
          · exact Or.inr (List.mem_cons_of_mem _ (List.mem_cons_of_mem _ h))
      · rw [collapsePass_cons2_eq, if_neg hdd] at h
        rcases List.mem_cons.1 h with rfl | h
        · exact Or.inr (List.mem_cons_self _ _)
        · rcases ih (c2 :: rest) (by simp only [List.length_cons] at hlen ⊢; omega) h with h | h
          · exact Or.inl h
          · exact Or.inr (List.mem_cons_of_mem _ h)
  exact fun l => main l.length l (Nat.le_refl _)

theorem nfd_cons_eq (x : Char) (l : List Char) : nfd (x :: l) = nfdChar x ++ nfd l := rfl

theorem mem_nfd (c : Char) : ∀ l : List Char, c ∈ nfd l → ∃ cc ∈ l, c ∈ nfdChar cc := by
  intro l
  induction l with
  | nil => intro h; exact absurd h (by simp [nfd])
  | cons x xs ih =>
    intro h
    rw [nfd_cons_eq] at h
    rcases List.mem_append.1 h with h | h
    · exact ⟨x, List.mem_cons_self _ _, h⟩
    · obtain ⟨cc, hcc, hmem⟩ := ih h
      exact ⟨cc, List.mem_cons_of_mem _ hcc, hmem⟩

theorem mem_nfdChar_slash (cc : Char) (h : '/' ∈ nfdChar cc) : cc = '/' := by
  unfold nfdChar at h
  cases hf : nfdTable.find? (fun e => e.1 == cc) with
  | some e =>
    rw [hf] at h
    have hmem : e ∈ nfdTable := List.mem_of_find?_eq_some hf
    have hclean : ∀ x ∈ nfdTable, '/' ∉ x.2 := by decide
    exact absurd h (hclean e hmem)
  | none =>
    rw [hf] at h
    exact (List.mem_singleton.1 h).symm

theorem noslash_basename (p : String) : '/' ∉ (basename p).toList := by
  intro h
  unfold basename at h
  rw [List.toList_asString] at h
  have h2 := List.mem_reverse.1 h
  have h3 := List.mem_takeWhile_imp h2
  simp at h3

theorem noslash_normalizeAssetName (p : String) :
    '/' ∉ (normalizeAssetName p).toList := by
  intro h
  unfold normalizeAssetName at h
  rw [List.toList_asString] at h
  have h1 := List.mem_of_mem_filter h
  obtain ⟨cc, hcc, hmem⟩ := mem_nfd _ _ h1
  obtain rfl := mem_nfdChar_slash cc hmem
  rcases mem_collapsePass _ _ hcc with he | hcc2
  · exact absurd he (by decide)
  rcases mem_replaceBrackets _ _ hcc2 with he | hcc3
  · exact absurd he (by decide)
  exact noslash_basename p (mem_jsTrim _ _ hcc3)

theorem mem_matchAssets_assetName (artifacts : List Artifact)
    (assets : List RemoteAsset) (ma : MatchedAsset)
    (h : ma ∈ matchAssets artifacts assets) :
    ∃ art ∈ artifacts, ma.assetName = normalizeAssetName art.path := by
  unfold matchAssets at h
  obtain ⟨art, hart0, hart⟩ := List.mem_filterMap.1 h
  dsimp only at hart
  rcases hd : downloadUrlFor assets (normalizeAssetName art.path) with _ | url
  · rw [hd] at hart
    exact absurd hart (by simp)
  · rw [hd] at hart
    change (if url = "" then none
        else some { downloadUrl := url, assetName := normalizeAssetName art.path,
                    path := art.path, arch := art.arch }) = some ma at hart
    by_cases hurl : url = ""
    · rw [if_pos hurl] at hart
      exact absurd hart (by simp)
    · rw [if_neg hurl] at hart
      refine ⟨art, hart0, ?_⟩
      injection hart with h2
      rw [← h2]

theorem mem_orderedInsert {α : Type} (le : α → α → Bool) (a x : α) :
    ∀ l : List α, a ∈ orderedInsert le x l → a = x ∨ a ∈ l := by
  intro l
  induction l with
  | nil => intro h; exact Or.inl (List.mem_singleton.1 h)
  | cons y ys ih =>
    intro h
    unfold orderedInsert at h
    by_cases hle : le x y = true
    · rw [if_pos hle] at h
      rcases List.mem_cons.1 h with rfl | h
      · exact Or.inl rfl
      · exact Or.inr h
    · rw [if_neg hle] at h
      rcases List.mem_cons.1 h with rfl | h
      · exact Or.inr (List.mem_cons_self _ _)
      · rcases ih h with h | h
        · exact Or.inl h
        · exact Or.inr (List.mem_cons_of_mem _ h)

theorem mem_jsSortBy {α : Type} (le : α → α → Bool) (a : α) :
    ∀ l : List α, a ∈ jsSortBy le l → a ∈ l := by
  intro l
  induction l with
  | nil => intro h; exact absurd h (by simp [jsSortBy])
  | cons x xs ih =>
    intro h
    rcases mem_orderedInsert le a x _ h with rfl | h
    · exact List.mem_cons_self _ _
    · exact List.mem_cons_of_mem _ (ih h)

theorem selectedSignature_mem (i : RunInput) (sf : MatchedAsset)
    (h : selectedSignature i = some sf) : sf ∈ signatureFiles i := by
  unfold selectedSignature sortedSignatureFiles at h
  have hmem : sf ∈ (jsSortBy (signatureLe i.updaterJsonPreferNsis)
      (signatureFiles i)).head? := by
    rw [h]
    exact Option.mem_def.2 rfl
  exact mem_jsSortBy _ _ _ (List.mem_of_mem_head? hmem)

theorem dropWhile_eq_self_of_all (p : Char → Bool) (l : List Char)
    (h : ∀ x ∈ l, p x = false) : l.dropWhile p = l := by
  rcases l with _ | ⟨c, rest⟩
  · rfl
  · rw [List.dropWhile_cons, if_neg (by rw [h c (List.mem_cons_self _ _)]; simp)]

theorem takeWhile_eq_self_of_all (p : Char → Bool) :
    ∀ l : List Char, (∀ x ∈ l, p x = true) → l.takeWhile p = l := by
  intro l
  induction l with
  | nil => intro _; rfl
  | cons c rest ih =>
    intro h
    rw [List.takeWhile_cons, if_pos (h c (List.mem_cons_self _ _))]
    rw [ih (fun x hx => h x (List.mem_cons_of_mem _ hx))]

theorem basename_of_noslash (p : String) (h : '/' ∉ p.toList) : basename p = p := by
  unfold basename
  have hrev : ∀ x ∈ p.toList.reverse, (x == '/') = false := by
    intro x hx
    have hne : x ≠ '/' := fun he => h (he ▸ List.mem_reverse.1 hx)
    simpa using hne
  rw [dropWhile_eq_self_of_all _ _ hrev]
  rw [takeWhile_eq_self_of_all _ _ (by
    intro x hx
    have hne : x ≠ '/' := fun he => h (he ▸ List.mem_reverse.1 hx)
    simpa using hne)]
  rw [List.reverse_reverse, String.asString_toList]

theorem lastDotIdxAux_sig : ∀ i : Nat, lastDotIdxAux ['s', 'i', 'g'] i = none := by
  intro i
  rfl

theorem lastDotIdxAux_append_sig :
    ∀ (stem : List Char) (i : Nat),
    lastDotIdxAux (stem ++ ['.', 's', 'i', 'g']) i = some (i + stem.length) := by
  intro stem
  induction stem with
  | nil =>
    intro i
    show lastDotIdxAux ['.', 's', 'i', 'g'] i = some (i + 0)
    unfold lastDotIdxAux
    rw [lastDotIdxAux_sig]
    simp
  | cons c rest ih =>
    intro i
    show lastDotIdxAux (c :: (rest ++ ['.', 's', 'i', 'g'])) i = some (i + (rest.length + 1))
    unfold lastDotIdxAux
    rw [ih (i + 1)]
    simp only [Option.some_inj]
    omega

theorem extname_sig (n : String) (stem : List Char) (hns : '/' ∉ n.toList)
    (hdecomp : n.toList = stem ++ ['.', 's', 'i', 'g']) (hstem : stem ≠ []) :
    extname n = ".sig" := by
  unfold extname
  rw [basename_of_noslash n hns, hdecomp]
  dsimp only
  rw [show lastDotIdx (stem ++ ['.', 's', 'i', 'g']) = some stem.length by
    unfold lastDotIdx
    rw [lastDotIdxAux_append_sig stem 0]
    simp]
  have hd0 : ¬ (stem.length = 0 ∨ stem ++ ['.', 's', 'i', 'g'] = ['.', '.']) := by
    intro h
    rcases h with h | h
    · exact hstem (List.length_eq_zero.1 h)
    · have hlen := congrArg List.length h
      simp at hlen
  show (if stem.length = 0 ∨ stem ++ ['.', 's', 'i', 'g'] = ['.', '.'] then ""
    else (List.drop stem.length (stem ++ ['.', 's', 'i', 'g'])).asString) = ".sig"
  rw [if_neg hd0]
  rw [show (stem ++ ['.', 's', 'i', 'g']).drop stem.length = ['.', 's', 'i', 'g']
    from List.drop_left stem _]
  rfl

theorem basenameExt_sig (n : String) (stem : List Char) (hns : '/' ∉ n.toList)
    (hdecomp : n.toList = stem ++ ['.', 's', 'i', 'g']) (hstem : stem ≠ []) :
    basenameExt n ".sig" = n.dropRight 4 := by
  have hlen : n.length = stem.length + 4 := by
    have h := congrArg List.length hdecomp
    simpa using h
  have hpos : 0 < stem.length := List.length_pos.2 hstem
  unfold basenameExt
  rw [if_neg (by
    intro h
    rcases h with h | h
    · revert h
      decide
    · rw [show (".sig" : String).length = 4 from rfl] at h
      omega)]
  rw [if_neg (by
    intro h
    have hl := congrArg String.length h
    rw [hlen, show (".sig" : String).length = 4 from rfl] at hl
    omega)]
  rw [basename_of_noslash n hns]
  rw [if_pos ⟨by
      intro h
      have hl := congrArg String.length h
      rw [hlen, show (".sig" : String).length = 4 from rfl] at hl
      omega,
    by
      rw [List.isSuffixOf_iff_suffix]
      exact ⟨stem, hdecomp.symm⟩⟩]
  rfl

theorem updaterName_sig (sf : MatchedAsset) (stem : List Char)
    (hns : '/' ∉ sf.assetName.toList)
    (hdecomp : sf.assetName.toList = stem ++ ['.', 's', 'i', 'g'])
    (hstem : stem ≠ []) :
    updaterName sf = sf.assetName.dropRight 4 := by
  unfold updaterName
  rw [extname_sig sf.assetName stem hns hdecomp hstem,
    basenameExt_sig sf.assetName stem hns hdecomp hstem]

/-- C9 counterexample: a winning signature whose normalized asset name is
exactly `.sig` has no extension for node, so nothing is stripped; the
companion lookup then finds the signature file itself (advertising the
signature's own URL), while the claimed rule (strip the trailing `.sig`,
match the remainder exactly) selects nothing. -/
theorem companion_stripped_counterexample :
    companion exDotSig = some ⟨"usig", ".sig", ".sig", "x64"⟩
      ∧ (filteredAssets exDotSig).find?
          (fun a => a.assetName == (".sig" : String).dropRight 4) = none
      ∧ companionUrl exDotSig = some "usig" :=
  ⟨rfl, rfl, rfl⟩

/-- C9 amended: whenever the winning signature's normalized asset name is
longer than the bare four-character suffix `.sig`, the companion is the
first matched asset whose normalized name equals the winner's name with
the trailing `.sig` stripped; an asset with any other name is never
chosen.  (For a winner named exactly `.sig`, node strips nothing and the
winner selects itself.) -/
theorem companion_is_stripped_name (i : RunInput) (sf : MatchedAsset)
    (hsel : selectedSignature i = some sf)
    (hlong : 4 < sf.assetName.length) :
    companion i = (filteredAssets i).find?
      (fun a => a.assetName == sf.assetName.dropRight 4) := by
  have hmem : sf ∈ signatureFiles i := selectedSignature_mem i sf hsel
  have hsig : strEndsWith sf.assetName ".sig" = true :=
    (List.mem_filter.1 hmem).2
  have hsuffix : (".sig" : String).toList <:+ sf.assetName.toList := by
    rw [← List.isSuffixOf_iff_suffix]
    exact hsig
  obtain ⟨stem, hstem⟩ := hsuffix
  have hdecomp : sf.assetName.toList = stem ++ ['.', 's', 'i', 'g'] := hstem.symm
  have hstemne : stem ≠ [] := by
    intro h
    rw [h] at hdecomp
    have hl := congrArg List.length hdecomp
    rw [show sf.assetName.toList.length = sf.assetName.length from rfl] at hl
    simp at hl
    omega
  have hns : '/' ∉ sf.assetName.toList := by
    have h2 : sf ∈ filteredAssets i := List.mem_of_mem_filter hmem
    obtain ⟨art, _, hname⟩ := mem_matchAssets_assetName i.artifacts (page i) sf h2
    rw [hname]
    exact noslash_normalizeAssetName art.path
  unfold companion
  rw [hsel]
  change (filteredAssets i).find? (fun a => a.assetName == updaterName sf)
      = (filteredAssets i).find? (fun a => a.assetName == sf.assetName.dropRight 4)
  rw [updaterName_sig sf stem hns hdecomp hstemne]

/-- C9 amended witness: in the example run the winner is the msi.zip
signature and the companion lookup uses the name with `.sig` stripped. -/
theorem companion_is_stripped_name_witness :
    companion exRun = (filteredAssets exRun).find?
      (fun a => a.assetName == ("app.msi.zip.sig" : String).dropRight 4) :=
  companion_is_stripped_name exRun
    ⟨"https://h/download/untagged-q/app.msi.zip.sig", "app.msi.zip.sig",
      "app.msi.zip.sig", "x64"⟩
    rfl (by decide)

end TauriAction
